import Mathlib

/-!
Verification of the planify orchestration engine against its specification.

The definitions below are a shallow embedding of the Python sources:
`planify/orchestrator.py` (phases, session state, the `_run_loop` driver,
`_get_next_phase`, `_slugify`), `planify/agents/base.py`
(`Agent._build_user_message`), `planify/output/doc_impact.py`
(`analyze_plan_impact`) and `planify/context/doc_parser.py`
(`parse_doc_architecture`'s root-doc selection).

Modelling conventions:
* Python `float` cost values are embedded as an arbitrary type `κ` together
  with an uninterpreted addition `add : κ → κ → κ` and an uninterpreted
  limit test `limitHit : κ → Bool` (the code only ever adds costs and
  compares the running total against the configured ceiling, so every
  theorem proved for arbitrary `add`/`limitHit` holds verbatim for IEEE
  doubles).
* `datetime.utcnow()` is an environment input: the loop environment carries
  functions producing the timestamp strings for the n-th recorded turn.
* Agent invocation (`agent.run`, an LLM call) is an environment input
  `resp`; the claims under study all assume the invocation succeeds.
* Strings are manipulated through their character lists (`String.data`);
  Python string primitives (`lower`, `title`, slicing, `in`) are embedded
  as executable functions on `List Char` over the ASCII range.
-/

namespace Planify

/-- Planning phases (`Phase` enum in orchestrator.py). -/
inductive Phase where
  | architect
  | critic
  | rebuttal
  | integrator
deriving DecidableEq, Repr

/-- The string tag of a phase (`Phase.value`; the enum values). -/
def Phase.value : Phase → String
  | .architect => "architect"
  | .critic => "critic"
  | .rebuttal => "rebuttal"
  | .integrator => "integrator"

/-- Python `Phase(tag)` construction: the enum member with that value, or a
`ValueError` (modelled as `none`). -/
def Phase.ofValue : String → Option Phase
  | "architect" => some .architect
  | "critic" => some .critic
  | "rebuttal" => some .rebuttal
  | "integrator" => some .integrator
  | _ => none

/-- Session status (`SessionStatus` enum in orchestrator.py). -/
inductive SessionStatus where
  | in_progress
  | awaiting_feedback
  | completed
  | aborted
deriving DecidableEq, Repr

/-- The string tag of a status (`SessionStatus.value`). -/
def SessionStatus.value : SessionStatus → String
  | .in_progress => "in_progress"
  | .awaiting_feedback => "awaiting_feedback"
  | .completed => "completed"
  | .aborted => "aborted"

/-- Python `SessionStatus(tag)` construction (`none` models `ValueError`). -/
def SessionStatus.ofValue : String → Option SessionStatus
  | "in_progress" => some .in_progress
  | "awaiting_feedback" => some .awaiting_feedback
  | "completed" => some .completed
  | "aborted" => some .aborted
  | _ => none

/-- `ConversationTurn` dataclass.  `κ` is the cost type (Python `float`). -/
structure ConversationTurn (κ : Type) where
  phase : String
  model : String
  content : String
  input_tokens : Int
  output_tokens : Int
  cost_usd : κ
  human_feedback : Option String
  timestamp : String
deriving DecidableEq, Repr

/-- `Session` dataclass.  `κ` is the cost type; `δ` is the payload type of
the `doc_impact_analysis` dictionary, which the engine never inspects. -/
structure Session (κ δ : Type) where
  id : String
  task : String
  repo_path : String
  status : SessionStatus
  current_phase : Phase
  round : Int
  conversation : List (ConversationTurn κ)
  total_cost_usd : κ
  files_loaded : List String
  tokens_used : Int
  created_at : String
  updated_at : String
  doc_impact_analysis : Option δ
deriving DecidableEq, Repr

/-- `AgentResponse` dataclass (agents/base.py). -/
structure AgentResponse (κ : Type) where
  content : String
  phase : String
  model : String
  input_tokens : Int
  output_tokens : Int
  cost_usd : κ
deriving DecidableEq, Repr

/-- `Orchestrator._get_next_phase`: the phase transition table. -/
def getNextPhase (current : Phase) (currentRound maxRounds : Int) : Option Phase :=
  match current with
  | .architect => some .critic
  | .critic => some .rebuttal
  | .rebuttal => some .integrator
  | .integrator => if currentRound < maxRounds then some .architect else none

/-- Role resolution in `_run_loop`:
`"architect" if phase == Phase.REBUTTAL else phase.value`. -/
def roleOf (phase : Phase) : String :=
  if phase = Phase.rebuttal then "architect" else phase.value

/-- The history list `_run_loop` rebuilds from the recorded turns before each
agent call: one `AgentResponse` per turn, copying every field except
`human_feedback` (which has no counterpart in `AgentResponse`). -/
def historyOfTurns {κ : Type} (conv : List (ConversationTurn κ)) : List (AgentResponse κ) :=
  conv.map fun t =>
    { content := t.content
      phase := t.phase
      model := t.model
      input_tokens := t.input_tokens
      output_tokens := t.output_tokens
      cost_usd := t.cost_usd }

/-- `history or None`: an empty history list is passed to the agent as
`None` (Python falsiness of the empty list). -/
def histOrNone {κ : Type} (conv : List (ConversationTurn κ)) : Option (List (AgentResponse κ)) :=
  let h := historyOfTurns conv
  if h.isEmpty then none else some h

/-- Environment of one `_run_loop` execution: the configured limits, the
cost arithmetic, the (always succeeding) agent oracle, the optional feedback
callback and the wall clock. -/
structure LoopEnv (κ : Type) where
  maxRounds : Int
  limitHit : κ → Bool
  add : κ → κ → κ
  resp : String → Option (List (AgentResponse κ)) → AgentResponse κ
  fb : Option (Phase → AgentResponse κ → Option String)
  turnTs : Nat → String
  updTs : Nat → String

/-- Outcome of a `_run_loop` execution: normal return, the raised cost-limit
`ProviderError` (the session object survives the raise, so the outcome
carries it), or fuel exhaustion (the loop was still running; the carried
session is the state at the start of the next iteration). -/
inductive LoopResult (κ δ : Type) where
  | ok (s : Session κ δ)
  | costErr (s : Session κ δ)
  | fuelOut (s : Session κ δ)
deriving DecidableEq, Repr

/-- The session carried by a loop outcome. -/
def LoopResult.state {κ δ : Type} : LoopResult κ δ → Session κ δ
  | .ok s => s
  | .costErr s => s
  | .fuelOut s => s

/-- One-iteration outcome: the loop returns normally, raises the cost-limit
error, or continues with an updated session. -/
inductive StepOut (κ δ : Type) where
  | done (s : Session κ δ)
  | err (s : Session κ δ)
  | next (s : Session κ δ)

/-- The body of the `while session.round <= max_rounds` loop in
`Orchestrator._run_loop`, one iteration.  Mirrors the source line by line:
cost guard; role resolution; history construction; agent call; turn record
(cost accumulation, `updated_at` refresh); optional feedback hook (the
transient `AWAITING_FEEDBACK` around the await collapses to the final
`IN_PROGRESS`, and the in-place `turn.human_feedback = feedback` mutation of
the just-appended turn is written as appending the patched turn); phase
advance with the round bump on the INTEGRATOR→ARCHITECT wrap. -/
def loopStep {κ δ : Type} (env : LoopEnv κ) (s : Session κ δ) : StepOut κ δ :=
  if s.round ≤ env.maxRounds then
    if env.limitHit s.total_cost_usd then
      .err { s with status := .aborted }
    else
      let phase := s.current_phase
      let response := env.resp (roleOf phase) (histOrNone s.conversation)
      let turn : ConversationTurn κ :=
        { phase := phase.value
          model := response.model
          content := response.content
          input_tokens := response.input_tokens
          output_tokens := response.output_tokens
          cost_usd := response.cost_usd
          human_feedback := none
          timestamp := env.turnTs s.conversation.length }
      let s1 : Session κ δ :=
        { s with
          conversation := s.conversation ++ [turn]
          total_cost_usd := env.add s.total_cost_usd response.cost_usd
          updated_at := env.updTs s.conversation.length }
      let s2 : Session κ δ :=
        match env.fb with
        | none => s1
        | some cb =>
          { s1 with
            conversation := s.conversation ++ [{ turn with human_feedback := cb phase response }]
            status := .in_progress }
      match getNextPhase phase s.round env.maxRounds with
      | none => .done { s2 with status := .completed }
      | some np =>
        let s3 := if np = Phase.architect ∧ phase = Phase.integrator
          then { s2 with round := s2.round + 1 } else s2
        .next { s3 with current_phase := np }
  else
    .done s

/-- `Orchestrator._run_loop` as a fuelled iteration of `loopStep`.  The
source loop always terminates (each round performs at most four iterations),
so any execution is captured by a large enough fuel; the claims are stated
at explicit fuels. -/
def runLoop {κ δ : Type} (env : LoopEnv κ) : Nat → Session κ δ → LoopResult κ δ
  | 0, s => .fuelOut s
  | fuel + 1, s =>
    match loopStep env s with
    | .done s' => .ok s'
    | .err s' => .costErr s'
    | .next s' => runLoop env fuel s'

/-- Fuel decomposition: running `a + b` steps first runs `a` steps and, if
the loop is still going, continues for `b` more. -/
theorem runLoop_add {κ δ : Type} (env : LoopEnv κ) (a b : Nat) (s : Session κ δ) :
    runLoop env (a + b) s =
      match runLoop env a s with
      | .fuelOut s' => runLoop env b s'
      | r => r := by
  induction a generalizing s with
  | zero => simp [runLoop]
  | succ a ih =>
    have hshift : a + 1 + b = (a + b) + 1 := by omega
    rw [hshift]
    simp only [runLoop]
    cases loopStep env s with
    | done s' => simp
    | err s' => simp
    | next s' => exact ih s'


/-- The state carried by a one-iteration outcome. -/
def StepOut.state {κ δ : Type} : StepOut κ δ → Session κ δ
  | .done s => s
  | .err s => s
  | .next s => s

/-- The spec's cost sum: the left fold of `cost_usd` over the conversation
in list order, starting from `z` (Python `sum(t.cost_usd for t in
conversation)` with its left-to-right accumulation). -/
def costFold {κ : Type} (add : κ → κ → κ) (z : κ) (conv : List (ConversationTurn κ)) : κ :=
  conv.foldl (fun a t => add a t.cost_usd) z

theorem costFold_append {κ : Type} (add : κ → κ → κ) (z : κ)
    (conv : List (ConversationTurn κ)) (t : ConversationTurn κ) :
    costFold add z (conv ++ [t]) = add (costFold add z conv) t.cost_usd := by
  simp [costFold]

/-- One loop iteration preserves the cost-accumulation invariant: in every
outcome, the resulting total is the cost fold of the resulting conversation
whenever that held on entry. -/
theorem loopStep_cost {κ δ : Type} (env : LoopEnv κ) (z : κ) (s : Session κ δ)
    (h : s.total_cost_usd = costFold env.add z s.conversation) :
    (loopStep env s).state.total_cost_usd
      = costFold env.add z (loopStep env s).state.conversation := by
  unfold loopStep
  split
  · split
    · simpa using h
    · cases hfb : env.fb with
      | none =>
        cases hnp : getNextPhase s.current_phase s.round env.maxRounds with
        | none => simp [StepOut.state, hfb, hnp, costFold_append, h]
        | some np =>
          by_cases hw : np = Phase.architect ∧ s.current_phase = Phase.integrator
          · obtain ⟨hw1, hw2⟩ := hw
            subst hw1
            rw [hw2] at hnp
            simp [StepOut.state, hfb, hnp, hw2, costFold_append, h]
          · simp [StepOut.state, hfb, hnp, hw, costFold_append, h]
      | some cb =>
        cases hnp : getNextPhase s.current_phase s.round env.maxRounds with
        | none => simp [StepOut.state, hfb, hnp, costFold_append, h]
        | some np =>
          by_cases hw : np = Phase.architect ∧ s.current_phase = Phase.integrator
          · obtain ⟨hw1, hw2⟩ := hw
            subst hw1
            rw [hw2] at hnp
            simp [StepOut.state, hfb, hnp, hw2, costFold_append, h]
          · simp [StepOut.state, hfb, hnp, hw, costFold_append, h]
  · simpa using h

theorem runLoop_cost {κ δ : Type} (env : LoopEnv κ) (z : κ) (fuel : Nat)
    (s : Session κ δ) (h : s.total_cost_usd = costFold env.add z s.conversation) :
    (runLoop env fuel s).state.total_cost_usd
      = costFold env.add z (runLoop env fuel s).state.conversation := by
  induction fuel generalizing s with
  | zero => simpa [runLoop, LoopResult.state] using h
  | succ fuel ih =>
    have hstep := loopStep_cost env z s h
    simp only [runLoop]
    cases hout : loopStep env s with
    | done s' => simpa [LoopResult.state, hout, StepOut.state] using hstep
    | err s' => simpa [LoopResult.state, hout, StepOut.state] using hstep
    | next s' =>
      exact ih s' (by simpa [hout, StepOut.state] using hstep)


/-- A concrete loop environment over integer costs; used only to instantiate
the general theorems at concrete inputs. -/
def demoEnv : LoopEnv Int :=
  { maxRounds := 1
    limitHit := fun c => decide (5 ≤ c)
    add := fun a b => a + b
    resp := fun _ _ =>
      { content := "plan", phase := "architect", model := "m"
        input_tokens := 1, output_tokens := 2, cost_usd := 1 }
    fb := none
    turnTs := fun _ => "ts"
    updTs := fun _ => "us" }

/-- A concrete freshly created session (empty conversation, zero total). -/
def demoSession : Session Int Unit :=
  { id := "2025-01-01-000000-demo", task := "demo", repo_path := "/repo"
    status := .in_progress, current_phase := .architect, round := 1
    conversation := [], total_cost_usd := 0, files_loaded := []
    tokens_used := 0, created_at := "c", updated_at := "u"
    doc_impact_analysis := none }

/-- C2: for every session driven by the engine from creation (empty
conversation, running total equal to the starting zero), after any number of
loop iterations and in every outcome, `total_cost_usd` equals the left fold
of `cost_usd` over `conversation` in list order — computed with the very
addition the code uses, so the identity is exact for floating-point
addition as well; no independent counter drift is possible. -/
theorem claim_c2_total_cost_invariant {κ δ : Type} (env : LoopEnv κ) (z : κ) (fuel : Nat)
    (s0 : Session κ δ) (hconv : s0.conversation = []) (htot : s0.total_cost_usd = z) :
    (runLoop env fuel s0).state.total_cost_usd
      = costFold env.add z (runLoop env fuel s0).state.conversation :=
  runLoop_cost env z fuel s0 (by rw [htot, hconv]; rfl)

/-- Witness for C2 at a concrete environment and fresh session. -/
theorem claim_c2_witness :
    (runLoop demoEnv 2 demoSession).state.total_cost_usd
      = costFold demoEnv.add 0 (runLoop demoEnv 2 demoSession).state.conversation :=
  claim_c2_total_cost_invariant demoEnv 0 2 demoSession rfl rfl

/-- C3: if at the start of a loop iteration (round within bounds) the
cumulative cost already meets or exceeds the limit, the loop sets the status
to ABORTED and raises the cost-limit error.  The returned session differs
from the input only in its status: no turn is appended, no cost accrues, and
the result does not mention the agent oracle at all (the agent is not
invoked for that iteration). -/
theorem claim_c3_cost_guard {κ δ : Type} (env : LoopEnv κ) (fuel : Nat) (s : Session κ δ)
    (hr : s.round ≤ env.maxRounds) (hc : env.limitHit s.total_cost_usd = true) :
    runLoop env (fuel + 1) s = .costErr { s with status := .aborted } := by
  simp [runLoop, loopStep, hr, hc]

/-- A session whose running total already hit the demo cost limit. -/
def demoCostlySession : Session Int Unit := { demoSession with total_cost_usd := 7 }

/-- Witness for C3 at a concrete over-budget session. -/
theorem claim_c3_witness :
    demoCostlySession.round ≤ demoEnv.maxRounds ∧
    demoEnv.limitHit demoCostlySession.total_cost_usd = true ∧
    runLoop demoEnv 1 demoCostlySession = .costErr { demoCostlySession with status := .aborted } :=
  ⟨by decide, by decide, claim_c3_cost_guard demoEnv 0 demoCostlySession (by decide) (by decide)⟩

/-- A session resumed with terminal status COMPLETED and round still within
bounds. -/
def demoCompletedSession : Session Int Unit := { demoSession with status := .completed }

/-- C5 counterexample: the loop condition checks only the round bound, never
the status.  A session whose stored status is COMPLETED (terminal) with
`round ≤ max_rounds` is still executed: one iteration appends a turn, i.e.
an agent is invoked while the status is terminal, contradicting the claim
that no agent is ever invoked while the status is terminal. -/
theorem claim_c5_counterexample :
    demoCompletedSession.status = SessionStatus.completed ∧
    demoCompletedSession.round ≤ demoEnv.maxRounds ∧
    (runLoop demoEnv 1 demoCompletedSession).state.conversation.length = 1 := by
  refine ⟨rfl, by decide, by decide⟩

/-- C5 (amended): the loop executes phase turns only while
`round ≤ max_rounds`, regardless of the session status.  When the round
bound is exceeded the loop returns the session unchanged without invoking
any agent; the status guard stated by the spec does not exist in the code. -/
theorem claim_c5_round_bound_only {κ δ : Type} (env : LoopEnv κ) (fuel : Nat) (s : Session κ δ)
    (h : env.maxRounds < s.round) :
    runLoop env (fuel + 1) s = .ok s := by
  have hle : ¬ s.round ≤ env.maxRounds := by omega
  simp [runLoop, loopStep, hle]

/-- A session whose round counter already exceeds the demo round bound. -/
def demoExhaustedSession : Session Int Unit := { demoSession with round := 2, status := .aborted }

/-- Witness for the amended C5 at a concrete session past the round bound. -/
theorem claim_c5_witness :
    demoEnv.maxRounds < demoExhaustedSession.round ∧
    runLoop demoEnv 3 demoExhaustedSession = .ok demoExhaustedSession :=
  ⟨by decide, claim_c5_round_bound_only demoEnv 2 demoExhaustedSession (by decide)⟩


/-- The turn recorded by one (guard-passing) loop iteration, with the
feedback patch already applied: the body appends exactly this turn. -/
def recordedTurn {κ δ : Type} (env : LoopEnv κ) (s : Session κ δ) : ConversationTurn κ :=
  let response := env.resp (roleOf s.current_phase) (histOrNone s.conversation)
  { phase := s.current_phase.value
    model := response.model
    content := response.content
    input_tokens := response.input_tokens
    output_tokens := response.output_tokens
    cost_usd := response.cost_usd
    human_feedback := match env.fb with | none => none | some cb => cb s.current_phase response
    timestamp := env.turnTs s.conversation.length }

/-- Closed form of one loop iteration when the round bound holds and the
cost guard passes: the recorded turn is appended, cost and `updated_at`
are refreshed, and the loop either completes (next phase `none`) or
advances, bumping the round exactly on the INTEGRATOR→ARCHITECT wrap. -/
theorem loopStep_shape {κ δ : Type} (env : LoopEnv κ) (s : Session κ δ)
    (hr : s.round ≤ env.maxRounds) (hl : env.limitHit s.total_cost_usd = false) :
    loopStep env s =
      match getNextPhase s.current_phase s.round env.maxRounds with
      | none => .done
          { s with
            conversation := s.conversation ++ [recordedTurn env s]
            total_cost_usd := env.add s.total_cost_usd
              (env.resp (roleOf s.current_phase) (histOrNone s.conversation)).cost_usd
            updated_at := env.updTs s.conversation.length
            status := .completed }
      | some np => .next
          { s with
            conversation := s.conversation ++ [recordedTurn env s]
            total_cost_usd := env.add s.total_cost_usd
              (env.resp (roleOf s.current_phase) (histOrNone s.conversation)).cost_usd
            updated_at := env.updTs s.conversation.length
            status := match env.fb with | none => s.status | some _ => .in_progress
            current_phase := np
            round := if np = Phase.architect ∧ s.current_phase = Phase.integrator
              then s.round + 1 else s.round } := by
  unfold loopStep
  rw [if_pos hr]
  cases hfb : env.fb with
  | none =>
    cases hnp : getNextPhase s.current_phase s.round env.maxRounds with
    | none => simp [hl, hfb, hnp, recordedTurn]
    | some np =>
      by_cases hw : np = Phase.architect ∧ s.current_phase = Phase.integrator
      · obtain ⟨hw1, hw2⟩ := hw
        subst hw1
        rw [hw2] at hnp
        simp [hl, hfb, hnp, hw2, recordedTurn]
      · simp [hl, hfb, hnp, hw, recordedTurn]
  | some cb =>
    cases hnp : getNextPhase s.current_phase s.round env.maxRounds with
    | none => simp [hl, hfb, hnp, recordedTurn]
    | some np =>
      by_cases hw : np = Phase.architect ∧ s.current_phase = Phase.integrator
      · obtain ⟨hw1, hw2⟩ := hw
        subst hw1
        rw [hw2] at hnp
        simp [hl, hfb, hnp, hw2, recordedTurn]
      · simp [hl, hfb, hnp, hw, recordedTurn]

/-- The phase the loop is in at the start of its `k`-th iteration of a fresh
run: the four phases cycle with period four. -/
def phaseIdx (k : Nat) : Phase :=
  match k % 4 with
  | 0 => .architect
  | 1 => .critic
  | 2 => .rebuttal
  | _ => .integrator

theorem phaseIdx_mod0 (k : Nat) (h : k % 4 = 0) : phaseIdx k = .architect := by
  unfold phaseIdx; rw [h]

theorem phaseIdx_mod1 (k : Nat) (h : k % 4 = 1) : phaseIdx k = .critic := by
  unfold phaseIdx; rw [h]

theorem phaseIdx_mod2 (k : Nat) (h : k % 4 = 2) : phaseIdx k = .rebuttal := by
  unfold phaseIdx; rw [h]

theorem phaseIdx_mod3 (k : Nat) (h : k % 4 = 3) : phaseIdx k = .integrator := by
  unfold phaseIdx; rw [h]

/-- Phase tags of the first `k` turns of a fresh run. -/
def phasesUpTo (k : Nat) : List String :=
  (List.range k).map fun i => (phaseIdx i).value

/-- The spec's phase sequence: (architect, critic, rebuttal, integrator)
repeated `n` times. -/
def phaseCycle (n : Nat) : List String :=
  (List.replicate n ["architect", "critic", "rebuttal", "integrator"]).flatten

theorem phasesUpTo_succ (k : Nat) :
    phasesUpTo (k + 1) = phasesUpTo k ++ [(phaseIdx k).value] := by
  simp [phasesUpTo, List.range_succ]

theorem phasesUpTo_cycle (n : Nat) : phasesUpTo (4 * n) = phaseCycle n := by
  induction n with
  | zero => rfl
  | succ n ih =>
    have h4 : 4 * (n + 1) = 4 * n + 1 + 1 + 1 + 1 := by ring
    have e0 : phaseIdx (4 * n) = .architect := phaseIdx_mod0 _ (by omega)
    have e1 : phaseIdx (4 * n + 1) = .critic := phaseIdx_mod1 _ (by omega)
    have e2 : phaseIdx (4 * n + 1 + 1) = .rebuttal := phaseIdx_mod2 _ (by omega)
    have e3 : phaseIdx (4 * n + 1 + 1 + 1) = .integrator := phaseIdx_mod3 _ (by omega)
    rw [h4, phasesUpTo_succ, phasesUpTo_succ, phasesUpTo_succ, phasesUpTo_succ,
      e0, e1, e2, e3, ih]
    simp [phaseCycle, List.replicate_succ', Phase.value, List.append_assoc]


theorem runLoop_one_next {κ δ : Type} (env : LoopEnv κ) (s s' : Session κ δ)
    (h : loopStep env s = .next s') : runLoop env 1 s = .fuelOut s' := by
  show runLoop env (0 + 1) s = _
  simp [runLoop, h]

theorem runLoop_one_done {κ δ : Type} (env : LoopEnv κ) (s s' : Session κ δ)
    (h : loopStep env s = .done s') : runLoop env 1 s = .ok s' := by
  show runLoop env (0 + 1) s = _
  simp [runLoop, h]

/-- Trace characterisation of a clean fresh run: as long as the cost guard
never fires, the state at the start of iteration `k` (obtained by running
the loop with fuel `k`) is still in progress, sits at phase `k mod 4` of the
cycle, has round `k div 4 + 1`, and its conversation carries exactly the
first `k` phase tags of the cycle. -/
theorem c1_trace {κ δ : Type} (env : LoopEnv κ) (N : Nat)
    (hmax : env.maxRounds = (N : Int))
    (s0 : Session κ δ) (hst : s0.status = .in_progress)
    (hph : s0.current_phase = .architect) (hrd : s0.round = 1)
    (hcv : s0.conversation = [])
    (hcost : ∀ k, k < 4 * N → env.limitHit ((runLoop env k s0).state).total_cost_usd = false) :
    ∀ k, k < 4 * N → ∃ sk : Session κ δ,
      runLoop env k s0 = .fuelOut sk ∧
      sk.status = .in_progress ∧
      sk.current_phase = phaseIdx k ∧
      sk.round = ((k / 4 : Nat) : Int) + 1 ∧
      sk.conversation.map (fun t => t.phase) = phasesUpTo k := by
  intro k
  induction k with
  | zero =>
    intro _
    refine ⟨s0, rfl, hst, ?_, ?_, ?_⟩
    · rw [hph]; rfl
    · rw [hrd]; rfl
    · rw [hcv]; rfl
  | succ k ih =>
    intro hk1
    have hk : k < 4 * N := Nat.lt_of_succ_lt hk1
    obtain ⟨sk, hrun, hstk, hphk, hrdk, hconvk⟩ := ih hk
    have hr : sk.round ≤ env.maxRounds := by
      rw [hrdk, hmax]
      have h1 : k / 4 + 1 ≤ N := by omega
      exact_mod_cast h1
    have hl : env.limitHit sk.total_cost_usd = false := by
      have hc := hcost k hk
      rw [hrun] at hc
      exact hc
    have hstep1 : runLoop env (k + 1) s0 = runLoop env 1 sk := by
      rw [runLoop_add env k 1 s0, hrun]
    have hshape := loopStep_shape env sk hr hl
    have hm : k % 4 = 0 ∨ k % 4 = 1 ∨ k % 4 = 2 ∨ k % 4 = 3 := by omega
    rcases hm with h | h | h | h
    · rw [phaseIdx_mod0 k h] at hphk
      rw [hphk] at hshape
      have hcond : ¬ (Phase.critic = Phase.architect ∧ Phase.architect = Phase.integrator) := by
        simp
      simp only [getNextPhase, if_neg hcond] at hshape
      refine ⟨_, by rw [hstep1]; exact runLoop_one_next env sk _ hshape, ?_, ?_, ?_, ?_⟩
      · rcases hfb : env.fb with _ | cb <;> simp [hfb, hstk]
      · have h1 : (k + 1) % 4 = 1 := by omega
        simp [phaseIdx_mod1 _ h1]
      · have hq : (k + 1) / 4 = k / 4 := by omega
        rw [hq]
        simpa using hrdk
      · rw [phasesUpTo_succ]
        simp [hconvk, recordedTurn, hphk, phaseIdx_mod0 k h]
    · rw [phaseIdx_mod1 k h] at hphk
      rw [hphk] at hshape
      have hcond : ¬ (Phase.rebuttal = Phase.architect ∧ Phase.critic = Phase.integrator) := by
        simp
      simp only [getNextPhase, if_neg hcond] at hshape
      refine ⟨_, by rw [hstep1]; exact runLoop_one_next env sk _ hshape, ?_, ?_, ?_, ?_⟩
      · rcases hfb : env.fb with _ | cb <;> simp [hfb, hstk]
      · have h1 : (k + 1) % 4 = 2 := by omega
        simp [phaseIdx_mod2 _ h1]
      · have hq : (k + 1) / 4 = k / 4 := by omega
        rw [hq]
        simpa using hrdk
      · rw [phasesUpTo_succ]
        simp [hconvk, recordedTurn, hphk, phaseIdx_mod1 k h]
    · rw [phaseIdx_mod2 k h] at hphk
      rw [hphk] at hshape
      have hcond : ¬ (Phase.integrator = Phase.architect ∧ Phase.rebuttal = Phase.integrator) := by
        simp
      simp only [getNextPhase, if_neg hcond] at hshape
      refine ⟨_, by rw [hstep1]; exact runLoop_one_next env sk _ hshape, ?_, ?_, ?_, ?_⟩
      · rcases hfb : env.fb with _ | cb <;> simp [hfb, hstk]
      · have h1 : (k + 1) % 4 = 3 := by omega
        simp [phaseIdx_mod3 _ h1]
      · have hq : (k + 1) / 4 = k / 4 := by omega
        rw [hq]
        simpa using hrdk
      · rw [phasesUpTo_succ]
        simp [hconvk, recordedTurn, hphk, phaseIdx_mod2 k h]
    · rw [phaseIdx_mod3 k h] at hphk
      rw [hphk] at hshape
      have hlt : sk.round < env.maxRounds := by
        rw [hrdk, hmax]
        have h1 : k / 4 + 1 < N := by omega
        exact_mod_cast h1
      have hcondw : Phase.architect = Phase.architect ∧ Phase.integrator = Phase.integrator :=
        ⟨rfl, rfl⟩
      simp only [getNextPhase, if_pos hlt, if_pos hcondw] at hshape
      refine ⟨_, by rw [hstep1]; exact runLoop_one_next env sk _ hshape, ?_, ?_, ?_, ?_⟩
      · rcases hfb : env.fb with _ | cb <;> simp [hfb, hstk]
      · have h1 : (k + 1) % 4 = 0 := by omega
        simp [phaseIdx_mod0 _ h1]
      · have hq : (k + 1) / 4 = k / 4 + 1 := by omega
        simp only [and_self, ite_true, hrdk, hq]
        push_cast
        ring
      · rw [phasesUpTo_succ]
        simp [hconvk, recordedTurn, hphk, phaseIdx_mod3 k h]


/-- C1: on a fresh session (IN_PROGRESS, ARCHITECT, round 1, empty
conversation), with every agent invocation succeeding and the cost guard
never firing, a run with `max_rounds = N ≥ 1` terminates normally after
exactly `4 * N` iterations: the final status is COMPLETED, the final round
is `N`, and the recorded phases are exactly (architect, critic, rebuttal,
integrator) repeated `N` times.  Moreover the loop was still running at
every earlier point, at phase `k mod 4` of the cycle with round
`k div 4 + 1` — so the round counter increments exactly on the
INTEGRATOR→ARCHITECT wrap and never past `N`.  With `N = 1` this gives a
conversation of exactly 4 turns with the round still 1. -/
theorem claim_c1_phase_sequencing {κ δ : Type} (env : LoopEnv κ) (N : Nat) (hN : 1 ≤ N)
    (hmax : env.maxRounds = (N : Int))
    (s0 : Session κ δ) (hst : s0.status = .in_progress)
    (hph : s0.current_phase = .architect) (hrd : s0.round = 1)
    (hcv : s0.conversation = [])
    (hcost : ∀ k, k < 4 * N → env.limitHit ((runLoop env k s0).state).total_cost_usd = false) :
    ∃ fin : Session κ δ,
      runLoop env (4 * N) s0 = .ok fin ∧
      fin.status = .completed ∧
      fin.round = (N : Int) ∧
      fin.conversation.map (fun t => t.phase) = phaseCycle N ∧
      fin.conversation.length = 4 * N ∧
      ∀ k, k < 4 * N → ∃ sk : Session κ δ,
        runLoop env k s0 = .fuelOut sk ∧
        sk.current_phase = phaseIdx k ∧
        sk.round = ((k / 4 : Nat) : Int) + 1 ∧
        sk.conversation.length = k := by
  have htr := c1_trace env N hmax s0 hst hph hrd hcv hcost
  have hklast : 4 * N - 1 < 4 * N := by omega
  obtain ⟨sl, hrunl, hstl, hphl, hrdl, hconvl⟩ := htr (4 * N - 1) hklast
  have hml : (4 * N - 1) % 4 = 3 := by omega
  rw [phaseIdx_mod3 _ hml] at hphl
  have hr : sl.round ≤ env.maxRounds := by
    rw [hrdl, hmax]
    have h1 : (4 * N - 1) / 4 + 1 ≤ N := by omega
    exact_mod_cast h1
  have hl : env.limitHit sl.total_cost_usd = false := by
    have hc := hcost (4 * N - 1) hklast
    rw [hrunl] at hc
    exact hc
  have hshape := loopStep_shape env sl hr hl
  rw [hphl] at hshape
  have hnlt : ¬ sl.round < env.maxRounds := by
    rw [hrdl, hmax]
    have h1 : ¬ ((4 * N - 1) / 4 + 1 < N) := by omega
    intro hcon
    exact h1 (by exact_mod_cast hcon)
  simp only [getNextPhase, if_neg hnlt] at hshape
  have hfinal : runLoop env (4 * N) s0 = runLoop env 1 sl := by
    have hsplit : 4 * N = (4 * N - 1) + 1 := by omega
    rw [hsplit, runLoop_add env (4 * N - 1) 1 s0, hrunl]
  have hmapeq :
      (sl.conversation ++ [recordedTurn env sl]).map (fun t => t.phase) = phaseCycle N := by
    have h1 : (4 * N - 1) + 1 = 4 * N := by omega
    calc (sl.conversation ++ [recordedTurn env sl]).map (fun t => t.phase)
        = phasesUpTo (4 * N - 1) ++ [(phaseIdx (4 * N - 1)).value] := by
          rw [List.map_append, hconvl]
          simp [recordedTurn, hphl, phaseIdx_mod3 _ hml]
      _ = phasesUpTo ((4 * N - 1) + 1) := (phasesUpTo_succ _).symm
      _ = phaseCycle N := by rw [h1, phasesUpTo_cycle]
  refine ⟨_, by rw [hfinal]; exact runLoop_one_done env sl _ hshape, rfl, ?_, hmapeq, ?_, ?_⟩
  · show sl.round = (N : Int)
    rw [hrdl]
    have h1 : (4 * N - 1) / 4 = N - 1 := by omega
    rw [h1]
    omega
  · show (sl.conversation ++ [recordedTurn env sl]).length = 4 * N
    have := congrArg List.length hmapeq
    rw [List.length_map] at this
    rw [this, ← phasesUpTo_cycle]
    simp [phasesUpTo]
  · intro k hk
    obtain ⟨sk, h1, _, h3, h4, h5⟩ := htr k hk
    refine ⟨sk, h1, h3, h4, ?_⟩
    have := congrArg List.length h5
    rw [List.length_map] at this
    rw [this]
    simp [phasesUpTo]

/-- Witness for C1 at the concrete environment with `max_rounds = 1`: the
demo run completes with 4 turns, round 1, the full phase cycle once. -/
theorem claim_c1_witness :
    ∃ fin : Session Int Unit,
      runLoop demoEnv (4 * 1) demoSession = .ok fin ∧
      fin.status = .completed ∧
      fin.round = ((1 : Nat) : Int) ∧
      fin.conversation.map (fun t => t.phase) = phaseCycle 1 ∧
      fin.conversation.length = 4 * 1 ∧
      ∀ k, k < 4 * 1 → ∃ sk : Session Int Unit,
        runLoop demoEnv k demoSession = .fuelOut sk ∧
        sk.current_phase = phaseIdx k ∧
        sk.round = ((k / 4 : Nat) : Int) + 1 ∧
        sk.conversation.length = k :=
  claim_c1_phase_sequencing demoEnv 1 (by decide) rfl demoSession rfl rfl rfl rfl
    (by decide)


/-- The dictionary produced by `ConversationTurn.to_dict` (`asdict`): same
fields, all of base type. -/
structure TurnDict (κ : Type) where
  phase : String
  model : String
  content : String
  input_tokens : Int
  output_tokens : Int
  cost_usd : κ
  human_feedback : Option String
  timestamp : String
deriving DecidableEq, Repr

/-- `ConversationTurn.to_dict` (`asdict(self)`). -/
def ConversationTurn.to_dict {κ : Type} (t : ConversationTurn κ) : TurnDict κ :=
  { phase := t.phase, model := t.model, content := t.content
    input_tokens := t.input_tokens, output_tokens := t.output_tokens
    cost_usd := t.cost_usd, human_feedback := t.human_feedback
    timestamp := t.timestamp }

/-- `ConversationTurn.from_dict` (`cls(**data)`). -/
def ConversationTurn.from_dict {κ : Type} (d : TurnDict κ) : ConversationTurn κ :=
  { phase := d.phase, model := d.model, content := d.content
    input_tokens := d.input_tokens, output_tokens := d.output_tokens
    cost_usd := d.cost_usd, human_feedback := d.human_feedback
    timestamp := d.timestamp }

/-- The dictionary produced by `Session.to_dict`: enum fields become their
string tags, turns become their dictionaries. -/
structure SessionDict (κ δ : Type) where
  id : String
  task : String
  repo_path : String
  status : String
  current_phase : String
  round : Int
  conversation : List (TurnDict κ)
  total_cost_usd : κ
  files_loaded : List String
  tokens_used : Int
  created_at : String
  updated_at : String
  doc_impact_analysis : Option δ
deriving DecidableEq, Repr

/-- `Session.to_dict`. -/
def Session.to_dict {κ δ : Type} (s : Session κ δ) : SessionDict κ δ :=
  { id := s.id, task := s.task, repo_path := s.repo_path
    status := s.status.value
    current_phase := s.current_phase.value
    round := s.round
    conversation := s.conversation.map ConversationTurn.to_dict
    total_cost_usd := s.total_cost_usd
    files_loaded := s.files_loaded
    tokens_used := s.tokens_used
    created_at := s.created_at
    updated_at := s.updated_at
    doc_impact_analysis := s.doc_impact_analysis }

/-- `Session.from_dict`: reconstructs the enums from their string tags
(`SessionStatus(data["status"])`, `Phase(data["current_phase"])`; a bad tag
raises `ValueError`, modelled as `none`). -/
def Session.from_dict {κ δ : Type} (d : SessionDict κ δ) : Option (Session κ δ) :=
  match SessionStatus.ofValue d.status, Phase.ofValue d.current_phase with
  | some st, some ph =>
    some
      { id := d.id, task := d.task, repo_path := d.repo_path
        status := st, current_phase := ph, round := d.round
        conversation := d.conversation.map ConversationTurn.from_dict
        total_cost_usd := d.total_cost_usd
        files_loaded := d.files_loaded
        tokens_used := d.tokens_used
        created_at := d.created_at
        updated_at := d.updated_at
        doc_impact_analysis := d.doc_impact_analysis }
  | _, _ => none

/-- `Session.save`: `json.dump(self.to_dict(), f)`.  The stdlib `json`
layer (external to this repository) is the identity on this payload, so the
persisted file content is modelled by the dictionary itself. -/
def Session.save {κ δ : Type} (s : Session κ δ) : SessionDict κ δ :=
  s.to_dict

/-- `Session.load`: `cls.from_dict(json.load(f))`. -/
def Session.load {κ δ : Type} (d : SessionDict κ δ) : Option (Session κ δ) :=
  Session.from_dict d

theorem statusTag_roundtrip (st : SessionStatus) :
    SessionStatus.ofValue st.value = some st := by
  cases st <;> rfl

theorem phaseTag_roundtrip (p : Phase) : Phase.ofValue p.value = some p := by
  cases p <;> rfl

theorem ConversationTurn.from_to {κ : Type} (t : ConversationTurn κ) :
    ConversationTurn.from_dict t.to_dict = t := rfl

/-- C4: serialising a session and deserialising the result reproduces every
field — enum-valued status and phase, the ordered turn list with all turn
fields, the nullable `doc_impact_analysis` (in particular `none`), and all
remaining fields. -/
theorem claim_c4_roundtrip {κ δ : Type} (s : Session κ δ) :
    Session.load (Session.save s) = some s := by
  simp only [Session.load, Session.save, Session.to_dict, Session.from_dict,
    statusTag_roundtrip, phaseTag_roundtrip, List.map_map]
  have hcomp : ConversationTurn.from_dict ∘ ConversationTurn.to_dict
      = (id : ConversationTurn κ → ConversationTurn κ) :=
    funext fun t => ConversationTurn.from_to t
  rw [hcomp, List.map_id]

/-- Python `str.title()` on the ASCII range: a cased character is
upper-cased after a non-cased character and lower-cased otherwise. -/
def isAsciiAlpha (c : Char) : Bool :=
  (decide ('a' ≤ c) && decide (c ≤ 'z')) || (decide ('A' ≤ c) && decide (c ≤ 'Z'))

/-- ASCII lower-casing of one character (model of Python case mapping;
non-ASCII case mapping is elided). -/
def asciiLower (c : Char) : Char :=
  if 'A' ≤ c ∧ c ≤ 'Z' then Char.ofNat (c.toNat + 32) else c

/-- ASCII upper-casing of one character. -/
def asciiUpper (c : Char) : Char :=
  if 'a' ≤ c ∧ c ≤ 'z' then Char.ofNat (c.toNat - 32) else c

/-- Worker for `pyTitle`: the Boolean records whether the previous character
was cased. -/
def pyTitleCore : List Char → Bool → List Char
  | [], _ => []
  | c :: cs, prevCased =>
    (if isAsciiAlpha c then (if prevCased then asciiLower c else asciiUpper c) else c)
      :: pyTitleCore cs (isAsciiAlpha c)

/-- Python `str.title()` (ASCII model). -/
def pyTitle (s : String) : String :=
  ⟨pyTitleCore s.data false⟩

/-- `Agent._build_user_message` (agents/base.py): project-context block when
files were loaded, the task block, the prior transcript (each prior response
rendered under a heading naming its phase, body = `content` only), then the
role-specific instructions.  `context.to_prompt()` and
`_get_task_instructions()` are fixed strings for the run. -/
def buildUserMessage {κ : Type} (hasFiles : Bool) (contextPrompt : String) (task : String)
    (conversation_history : Option (List (AgentResponse κ))) (instructions : String) : String :=
  String.join
    ((if hasFiles then [contextPrompt, "\n---\n\n"] else []) ++
      ["# Task\n\n" ++ task ++ "\n\n"] ++
      (match conversation_history with
       | some hist =>
         if hist.isEmpty then []
         else
           ["# Previous Planning Discussion\n\n"] ++
             (hist.map fun r => ["## " ++ pyTitle r.phase ++ "\n\n", r.content, "\n\n"]).flatten ++
             ["---\n\n"]
       | none => []) ++
      [instructions])

/-- Forget the `human_feedback` field of a turn (every other field kept). -/
def eraseFeedback {κ : Type} (t : ConversationTurn κ) : ConversationTurn κ :=
  { t with human_feedback := none }

theorem historyOfTurns_eraseFeedback {κ : Type} (conv : List (ConversationTurn κ)) :
    historyOfTurns (conv.map eraseFeedback) = historyOfTurns conv := by
  unfold historyOfTurns eraseFeedback
  rw [List.map_map]
  rfl

/-- C9: the history handed to later agents is built from each prior turn
content (and phase/model/token/cost metadata) only, never from
`human_feedback`; hence two runs whose recorded turns agree except for the
`human_feedback` values produce the identical user message for every
subsequent agent — noninterference of prompt construction with respect to
feedback. -/
theorem claim_c9_feedback_noninterference {κ : Type} (hasFiles : Bool)
    (contextPrompt task instructions : String)
    (conv1 conv2 : List (ConversationTurn κ))
    (h : conv1.map eraseFeedback = conv2.map eraseFeedback) :
    buildUserMessage hasFiles contextPrompt task (histOrNone conv1) instructions
      = buildUserMessage hasFiles contextPrompt task (histOrNone conv2) instructions := by
  have hh : historyOfTurns conv1 = historyOfTurns conv2 := by
    rw [← historyOfTurns_eraseFeedback conv1, h, historyOfTurns_eraseFeedback]
  simp only [histOrNone, hh]

/-- A concrete recorded turn used to instantiate C9. -/
def demoTurn : ConversationTurn Int :=
  { phase := "architect", model := "m", content := "plan body"
    input_tokens := 1, output_tokens := 2, cost_usd := 1
    human_feedback := none, timestamp := "ts" }

/-- Witness for C9: attaching feedback to a recorded turn leaves the next
user message unchanged. -/
theorem claim_c9_witness :
    buildUserMessage true "ctx" "add login" (histOrNone [demoTurn]) "instr"
      = buildUserMessage true "ctx" "add login"
          (histOrNone [{ demoTurn with human_feedback := some "please shorten" }]) "instr" :=
  claim_c9_feedback_noninterference true "ctx" "add login" "instr" [demoTurn]
    [{ demoTurn with human_feedback := some "please shorten" }] (by decide)


/-- Does `needle` occur at the head of `hay`? (worker for the Python
substring operator). -/
def startsWithL : List Char → List Char → Bool
  | [], _ => true
  | _ :: _, [] => false
  | a :: as, b :: bs => a == b && startsWithL as bs

/-- The Python substring test `needle in hay` on character lists. -/
def containsSub (needle hay : List Char) : Bool :=
  match hay with
  | [] => needle.isEmpty
  | _ :: rest => startsWithL needle hay || containsSub needle rest

/-- Python `str.lower()` (ASCII model). -/
def strLower (s : String) : String :=
  ⟨s.data.map asciiLower⟩

/-- Python `needle in hay` on strings. -/
def substrB (needle hay : String) : Bool :=
  containsSub needle.data hay.data

/-- `DocImpactPriority` enum (output/doc_impact.py). -/
inductive DocImpactPriority where
  | required
  | recommended
  | optional
deriving DecidableEq, Repr

/-- `DocRoute` dataclass (context/doc_parser.py). -/
structure DocRoute where
  area : String
  doc_path : String
  keywords : List String
deriving DecidableEq, Repr

/-- `DocImpact` dataclass. -/
structure DocImpact where
  doc_path : String
  area : String
  reason : String
  priority : DocImpactPriority
  match_score : Nat
  matched_keywords : List String
deriving DecidableEq, Repr

/-- `DocImpactAnalysis` dataclass. -/
structure DocImpactAnalysis where
  impacts : List DocImpact
  warnings : List String
deriving DecidableEq, Repr

/-- The keyword loop of `analyze_plan_impact`: the keywords (in route order)
whose lower-casing occurs in the combined text. -/
def matchedKeywords (combined : String) (kws : List String) : List String :=
  kws.filter fun kw => substrB (strLower kw) combined

/-- The match score: one point per matched keyword. -/
def routeScore (combined : String) (kws : List String) : Nat :=
  (matchedKeywords combined kws).length

/-- The priority thresholds of `analyze_plan_impact`
(`score >= 4` required, `score >= 2` recommended, else optional). -/
def priorityOfScore (score : Nat) : DocImpactPriority :=
  if 4 ≤ score then .required else if 2 ≤ score then .recommended else .optional

/-- The impact record `analyze_plan_impact` builds for a surviving route. -/
def impactOfRoute (combined : String) (route : DocRoute) : DocImpact :=
  { doc_path := route.doc_path
    area := route.area
    reason := "Plan modifies " ++ route.area
    priority := priorityOfScore (routeScore combined route.keywords)
    match_score := routeScore combined route.keywords
    matched_keywords := (matchedKeywords combined route.keywords).take 5 }

/-- One iteration of the route loop of `analyze_plan_impact`: skip routes
with score 0, skip routes whose doc path was already added (`seen_docs`,
here the list of added paths), otherwise append the impact record and mark
the path seen. -/
def impactStep (combined : String) (acc : List DocImpact × List String) (route : DocRoute) :
    List DocImpact × List String :=
  let score := routeScore combined route.keywords
  if score = 0 then acc
  else if acc.2.contains route.doc_path then acc
  else (acc.1 ++ [impactOfRoute combined route], acc.2 ++ [route.doc_path])

/-- Stable insertion: `a` is placed before the first element whose sort key
is strictly greater (`le a b` true, `le b a` false ⇒ before; equal keys keep
original order since `a` only passes `b` when `¬ le a b`). -/
def sortedInsert {α : Type} (le : α → α → Bool) (a : α) : List α → List α
  | [] => [a]
  | b :: bs => if le a b then a :: b :: bs else b :: sortedInsert le a bs

/-- Stable sort by insertion, a model of Python `list.sort` (documented to
be stable); for a total boolean preorder the stable sorted result is
unique, so this agrees with the source's Timsort. -/
def stableSort {α : Type} (le : α → α → Bool) : List α → List α
  | [] => []
  | a :: as => sortedInsert le a (stableSort le as)

/-- `priority_order` mapping in `analyze_plan_impact`. -/
def priorityRank : DocImpactPriority → Nat
  | .required => 0
  | .recommended => 1
  | .optional => 2

/-- The sort key comparison `(priority_order[p], -match_score)` ascending:
`key a ≤ key b` lexicographically. -/
def impactLe (a b : DocImpact) : Bool :=
  decide (priorityRank a.priority < priorityRank b.priority) ||
    (decide (priorityRank a.priority = priorityRank b.priority) &&
      decide (b.match_score ≤ a.match_score))

/-- `_add_warnings`: the four independent heuristic checks over the
lower-cased plan text (apostrophes in the source's message texts are
written out as plain words here). -/
def warningsOf (plan_content : String) : List String :=
  let pl := strLower plan_content
  (if (substrB "endpoint" pl || substrB "api" pl) && substrB "route" pl
      && !substrB "document" pl && !substrB "docs" pl
   then ["New API endpoint detected - ensure it is documented in OpenAPI/Swagger"]
   else []) ++
  (if substrB "component" pl && substrB "tsx" pl && !substrB "test" pl
   then ["New component detected - consider adding unit tests"]
   else []) ++
  (if substrB "env" pl && (substrB "variable" pl || substrB "config" pl)
      && !substrB ".env.example" pl
   then ["Environment variable changes detected - update .env.example"]
   else []) ++
  (if (substrB "model" pl || substrB "schema" pl || substrB "database" pl)
      && !substrB "migration" pl
   then ["Data model changes detected - consider if migration is needed"]
   else [])

/-- The combined text `f"\x7btask}\n\n\x7bplan_content}".lower()`. -/
def combinedText (task plan_content : String) : String :=
  strLower (task ++ "\n\n" ++ plan_content)

/-- `analyze_plan_impact` (output/doc_impact.py).  Only the routing table of
the doc architecture is consulted (`_add_warnings` ignores its `doc_arch`
argument), so the routing table is the parameter.  The final sort is the
stable sort by `(priority_order, -score)`. -/
def analyze_plan_impact (plan_content : String) (routing_table : List DocRoute)
    (task : String) : DocImpactAnalysis :=
  let combined := combinedText task plan_content
  let acc := routing_table.foldl (impactStep combined) ([], [])
  { impacts := stableSort impactLe acc.1
    warnings := warningsOf plan_content }

theorem sortedInsert_perm {α : Type} (le : α → α → Bool) (a : α) (l : List α) :
    List.Perm (sortedInsert le a l) (a :: l) := by
  induction l with
  | nil => rfl
  | cons b bs ih =>
    unfold sortedInsert
    split
    · rfl
    · exact (ih.cons b).trans (List.Perm.swap a b bs)

theorem stableSort_perm {α : Type} (le : α → α → Bool) (l : List α) :
    List.Perm (stableSort le l) l := by
  induction l with
  | nil => rfl
  | cons a as ih => exact (sortedInsert_perm le a (stableSort le as)).trans (ih.cons a)


/-- The route-loop accumulator keeps, for every doc path, exactly the impact
record of the first route in table order with that path and a non-zero
score; later routes to the same path are discarded whatever their score. -/
theorem impactFold_filter (combined : String) (rt : List DocRoute) :
    ∀ (imps : List DocImpact) (seen : List String),
    (∀ q : String, q ∈ seen ↔ q ∈ imps.map fun i => i.doc_path) →
    ∀ p : String,
    (rt.foldl (impactStep combined) (imps, seen)).1.filter (fun i => i.doc_path == p)
      = imps.filter (fun i => i.doc_path == p) ++
        (if p ∈ seen then []
         else ((rt.find? fun r =>
             r.doc_path == p && !(routeScore combined r.keywords == 0)).map
           (impactOfRoute combined)).toList) := by
  induction rt with
  | nil =>
    intro imps seen hseen p
    simp
  | cons r rt ih =>
    intro imps seen hseen p
    rw [List.foldl_cons]
    by_cases hs : routeScore combined r.keywords = 0
    · have hstep : impactStep combined (imps, seen) r = (imps, seen) := by
        unfold impactStep
        rw [if_pos hs]
      rw [hstep]
      have hcond : (r.doc_path == p && !(routeScore combined r.keywords == 0)) = false := by
        simp [hs]
      rw [List.find?_cons, hcond]
      exact ih imps seen hseen p
    · by_cases hm : r.doc_path ∈ seen
      · have hcontains : seen.contains r.doc_path = true := by simpa using hm
        have hstep : impactStep combined (imps, seen) r = (imps, seen) := by
          unfold impactStep
          rw [if_neg hs, if_pos hcontains]
        rw [hstep]
        rw [ih imps seen hseen p]
        by_cases hp : p ∈ seen
        · rw [if_pos hp, if_pos hp]
        · have hne : (r.doc_path == p) = false := by
            simp only [beq_eq_false_iff_ne, ne_eq]
            intro he
            exact hp (he ▸ hm)
          rw [if_neg hp, if_neg hp, List.find?_cons]
          simp only [hne, Bool.false_and]
      · have hcontains : seen.contains r.doc_path = false := by simpa using hm
        have hstep : impactStep combined (imps, seen) r
            = (imps ++ [impactOfRoute combined r], seen ++ [r.doc_path]) := by
          unfold impactStep
          rw [if_neg hs, hcontains]
          simp
        rw [hstep]
        have hseen' : ∀ q : String,
            q ∈ seen ++ [r.doc_path]
              ↔ q ∈ (imps ++ [impactOfRoute combined r]).map fun i => i.doc_path := by
          intro q
          simp only [List.mem_append, List.map_append, hseen q, impactOfRoute,
            List.map_cons, List.map_nil]
        rw [ih (imps ++ [impactOfRoute combined r]) (seen ++ [r.doc_path]) hseen' p]
        by_cases hp : r.doc_path = p
        · subst hp
          have hpseen : ¬ r.doc_path ∈ seen := hm
          have hmem : r.doc_path ∈ seen ++ [r.doc_path] := by simp
          rw [if_pos hmem, if_neg hpseen, List.find?_cons]
          have hcond : (r.doc_path == r.doc_path && !(routeScore combined r.keywords == 0)) = true := by
            simp [hs]
          rw [hcond]
          simp [impactOfRoute]
        · have hmem : (p ∈ seen ++ [r.doc_path]) ↔ p ∈ seen := by
            simp only [List.mem_append, List.mem_singleton, or_iff_left_iff_imp]
            intro he
            exact absurd he.symm hp
          have hfilterlast :
              (imps ++ [impactOfRoute combined r]).filter (fun i => i.doc_path == p)
                = imps.filter (fun i => i.doc_path == p) := by
            rw [List.filter_append]
            have : ((impactOfRoute combined r).doc_path == p) = false := by
              simp [impactOfRoute, hp]
            simp [this]
          rw [hfilterlast]
          by_cases hpseen : p ∈ seen
          · rw [if_pos (hmem.mpr hpseen), if_pos hpseen]
          · have hne : (r.doc_path == p) = false := by simp [hp]
            rw [if_neg (fun hx => hpseen (hmem.mp hx)), if_neg hpseen, List.find?_cons]
            simp only [hne, Bool.false_and]


/-- C6: in `analyze_plan_impact`, routes with keyword score 0 against the
combined lower-cased task-plus-plan text are skipped, and the result is
deduplicated by doc path with the first route in routing-table order
winning: for every doc path `p`, the (unique) impact record kept for `p` is
exactly the one built from the first route to `p` with non-zero score — in
particular, when two routes share a doc path, the earlier (non-zero-scoring)
route wins even if the later route has a strictly higher score. -/
theorem claim_c6_dedup_first_wins (plan_content task : String) (rt : List DocRoute)
    (p : String) :
    (analyze_plan_impact plan_content rt task).impacts.filter (fun i => i.doc_path == p)
      = ((rt.find? fun r => r.doc_path == p
            && !(routeScore (combinedText task plan_content) r.keywords == 0)).map
          (impactOfRoute (combinedText task plan_content))).toList := by
  have hchar := impactFold_filter (combinedText task plan_content) rt [] []
    (by intro q; simp) p
  simp only [List.filter_nil, List.not_mem_nil, if_neg (List.not_mem_nil p),
    List.nil_append] at hchar
  have hperm :
      List.Perm
        ((analyze_plan_impact plan_content rt task).impacts.filter fun i => i.doc_path == p)
        ((rt.foldl (impactStep (combinedText task plan_content)) ([], [])).1.filter
          fun i => i.doc_path == p) := by
    exact (stableSort_perm impactLe _).filter _
  rw [hchar] at hperm
  cases hfind : rt.find? fun r => r.doc_path == p
      && !(routeScore (combinedText task plan_content) r.keywords == 0) with
  | none =>
    rw [hfind] at hperm
    have h0 : (analyze_plan_impact plan_content rt task).impacts.filter
        (fun i => i.doc_path == p) = [] :=
      List.perm_nil.mp (by simpa using hperm)
    rw [h0]
    simp
  | some r =>
    rw [hfind] at hperm
    have h0 : (analyze_plan_impact plan_content rt task).impacts.filter
        (fun i => i.doc_path == p)
        = [impactOfRoute (combinedText task plan_content) r] :=
      List.perm_singleton.mp (by simpa using hperm)
    rw [h0]
    simp

/-- Every impact in the accumulator comes from the initial accumulator or
from a route of the table with non-zero score. -/
theorem impactFold_mem (combined : String) (rt : List DocRoute) :
    ∀ (imps : List DocImpact) (seen : List String) (imp : DocImpact),
    imp ∈ (rt.foldl (impactStep combined) (imps, seen)).1 →
    imp ∈ imps ∨ ∃ r : DocRoute, r ∈ rt ∧ ¬ routeScore combined r.keywords = 0
      ∧ imp = impactOfRoute combined r := by
  induction rt with
  | nil =>
    intro imps seen imp h
    exact Or.inl h
  | cons r rt ih =>
    intro imps seen imp h
    rw [List.foldl_cons] at h
    by_cases hs : routeScore combined r.keywords = 0
    · have hstep : impactStep combined (imps, seen) r = (imps, seen) := by
        unfold impactStep
        rw [if_pos hs]
      rw [hstep] at h
      rcases ih imps seen imp h with h1 | ⟨r2, hr2, hs2, he2⟩
      · exact Or.inl h1
      · exact Or.inr ⟨r2, List.mem_cons_of_mem r hr2, hs2, he2⟩
    · by_cases hm : seen.contains r.doc_path = true
      · have hstep : impactStep combined (imps, seen) r = (imps, seen) := by
          unfold impactStep
          rw [if_neg hs, if_pos hm]
        rw [hstep] at h
        rcases ih imps seen imp h with h1 | ⟨r2, hr2, hs2, he2⟩
        · exact Or.inl h1
        · exact Or.inr ⟨r2, List.mem_cons_of_mem r hr2, hs2, he2⟩
      · have hstep : impactStep combined (imps, seen) r
            = (imps ++ [impactOfRoute combined r], seen ++ [r.doc_path]) := by
          unfold impactStep
          rw [if_neg hs]
          simp only [Bool.not_eq_true] at hm
          rw [hm]
          simp
        rw [hstep] at h
        rcases ih _ _ imp h with h1 | ⟨r2, hr2, hs2, he2⟩
        · rcases List.mem_append.mp h1 with h2 | h2
          · exact Or.inl h2
          · exact Or.inr ⟨r, List.mem_cons_self r rt, hs, by simpa using h2⟩
        · exact Or.inr ⟨r2, List.mem_cons_of_mem r hr2, hs2, he2⟩

/-- C7: every impact record kept by `analyze_plan_impact` has score at least
1 (a route scoring 0 produces no record at all), and its priority is purely
a function of the integer match score: `score ≥ 4` gives REQUIRED, score 2
or 3 gives RECOMMENDED, score exactly 1 gives OPTIONAL. -/
theorem claim_c7_priority_thresholds (plan_content task : String) (rt : List DocRoute)
    (imp : DocImpact) (h : imp ∈ (analyze_plan_impact plan_content rt task).impacts) :
    1 ≤ imp.match_score ∧
    (4 ≤ imp.match_score → imp.priority = .required) ∧
    (2 ≤ imp.match_score → imp.match_score ≤ 3 → imp.priority = .recommended) ∧
    (imp.match_score = 1 → imp.priority = .optional) := by
  have hmem : imp ∈ (rt.foldl
      (impactStep (combinedText task plan_content)) ([], [])).1 := by
    have hperm := stableSort_perm impactLe
      (rt.foldl (impactStep (combinedText task plan_content)) ([], [])).1
    exact hperm.mem_iff.mp h
  rcases impactFold_mem (combinedText task plan_content) rt [] [] imp hmem with
    h1 | ⟨r, _, hs, he⟩
  · exact absurd h1 (List.not_mem_nil imp)
  · subst he
    refine ⟨by simp [impactOfRoute]; omega, ?_, ?_, ?_⟩
    · intro h4
      simp only [impactOfRoute] at h4 ⊢
      unfold priorityOfScore
      rw [if_pos h4]
    · intro h2 h3
      simp only [impactOfRoute] at h2 h3 ⊢
      unfold priorityOfScore
      rw [if_neg (by omega), if_pos h2]
    · intro h1
      simp only [impactOfRoute] at h1 ⊢
      unfold priorityOfScore
      rw [if_neg (by omega), if_neg (by omega)]

/-- A concrete route used to instantiate the doc-impact theorems. -/
def demoRoute : DocRoute :=
  { area := "api", doc_path := "docs/api.md", keywords := ["api"] }

/-- Witness for C7: with task "add api" the demo route scores exactly 1 and
its kept impact is OPTIONAL. -/
theorem claim_c7_witness :
    impactOfRoute (combinedText "add api" "plan body") demoRoute
      ∈ (analyze_plan_impact "plan body" [demoRoute] "add api").impacts ∧
    (1 ≤ (impactOfRoute (combinedText "add api" "plan body") demoRoute).match_score ∧
     (4 ≤ (impactOfRoute (combinedText "add api" "plan body") demoRoute).match_score →
       (impactOfRoute (combinedText "add api" "plan body") demoRoute).priority = .required) ∧
     (2 ≤ (impactOfRoute (combinedText "add api" "plan body") demoRoute).match_score →
       (impactOfRoute (combinedText "add api" "plan body") demoRoute).match_score ≤ 3 →
       (impactOfRoute (combinedText "add api" "plan body") demoRoute).priority = .recommended) ∧
     ((impactOfRoute (combinedText "add api" "plan body") demoRoute).match_score = 1 →
       (impactOfRoute (combinedText "add api" "plan body") demoRoute).priority = .optional)) :=
  ⟨by decide, claim_c7_priority_thresholds "plan body" "add api" [demoRoute]
    (impactOfRoute (combinedText "add api" "plan body") demoRoute) (by decide)⟩


/-- Python `str.upper()` (ASCII model). -/
def strUpper (s : String) : String :=
  ⟨s.data.map asciiUpper⟩

/-- `Path.name`: the final path component (text after the last `/`). -/
def lastComponent (s : String) : String :=
  ⟨(s.data.reverse.takeWhile fun c => !(c == '/')).reverse⟩

/-- Python `str.endswith(suffix)`. -/
def endsWithL (suffix s : String) : Bool :=
  startsWithL suffix.data.reverse s.data.reverse

/-- One loaded repository file as seen by the doc parser (path string and
text content). -/
structure LoadedFile where
  path : String
  content : String
deriving DecidableEq, Repr

/-- The scan condition of `parse_doc_architecture`:
`'CLAUDE.MD' in filename.upper() or 'CLAUDE.MD' in str(path).upper()`
(case-insensitive substring test). -/
def isClaudeFile (path : String) : Bool :=
  containsSub "CLAUDE.MD".data (strUpper (lastComponent path)).data
    || containsSub "CLAUDE.MD".data (strUpper path).data

/-- The `root_doc` assignment loop of `parse_doc_architecture`, including
the source's exact condition
`path_str == 'CLAUDE.md' or path_str.endswith('/CLAUDE.md') and
path_str.count('/') == 0` (with Python precedence, the second disjunct is
`endswith AND count == 0`). -/
def rootDocOf (files : List LoadedFile) : Option String :=
  files.foldl
    (fun acc f =>
      if isClaudeFile f.path then
        if f.path == "CLAUDE.md"
            || (endsWithL "/CLAUDE.md" f.path && f.path.data.count '/' == 0)
        then some f.path
        else acc
      else acc)
    none

/-- A lower-case root documentation file. -/
def demoLowerClaudeFile : LoadedFile :=
  { path := "claude.md", content := "" }

/-- C8 counterexample: the file `claude.md` sits at the repository root
(zero path separators) and matches the documentation-convention filename
case-insensitively, so it is scanned — yet it is not recorded as
`root_doc` (the result is `none`, not `some "claude.md"`), because the
recording condition is the case-sensitive equality with `"CLAUDE.md"`. -/
theorem claim_c8_counterexample :
    isClaudeFile demoLowerClaudeFile.path = true ∧
    demoLowerClaudeFile.path.data.count '/' = 0 ∧
    rootDocOf [demoLowerClaudeFile] = none :=
  ⟨by decide, by decide, by decide⟩

theorem startsWithL_mem : ∀ n h : List Char, startsWithL n h = true → ∀ c ∈ n, c ∈ h := by
  intro n
  induction n with
  | nil =>
    intro h _ c hc
    cases hc
  | cons a as ih =>
    intro h hs c hc
    cases h with
    | nil => simp [startsWithL] at hs
    | cons b bs =>
      simp only [startsWithL, Bool.and_eq_true, beq_iff_eq] at hs
      rcases List.mem_cons.mp hc with h1 | h1
      · rw [h1, hs.1]
        exact List.mem_cons_self b bs
      · exact List.mem_cons_of_mem b (ih bs hs.2 c h1)

/-- The second disjunct of the root-doc condition is contradictory: a path
ending in `/CLAUDE.md` contains a separator. -/
theorem endsWith_slash_no_root (p : String) (h : endsWithL "/CLAUDE.md" p = true) :
    ¬ p.data.count '/' = 0 := by
  intro hcount
  have hmem : '/' ∈ p.data.reverse :=
    startsWithL_mem _ _ h '/' (by decide)
  rw [List.mem_reverse] at hmem
  have := List.count_pos_iff.mpr hmem
  omega

theorem rootDocOf_fold (files : List LoadedFile) :
    ∀ acc : Option String,
    files.foldl
      (fun acc f =>
        if isClaudeFile f.path then
          if f.path == "CLAUDE.md"
              || (endsWithL "/CLAUDE.md" f.path && f.path.data.count '/' == 0)
          then some f.path
          else acc
        else acc)
      acc
      = if files.any (fun f => f.path == "CLAUDE.md") then some "CLAUDE.md" else acc := by
  induction files with
  | nil =>
    intro acc
    simp
  | cons f fs ih =>
    intro acc
    rw [List.foldl_cons]
    by_cases hp : f.path = "CLAUDE.md"
    · have hic : isClaudeFile f.path = true := by rw [hp]; decide
      have hcond : (f.path == "CLAUDE.md"
          || (endsWithL "/CLAUDE.md" f.path && f.path.data.count '/' == 0)) = true := by
        rw [hp]
        decide
      rw [if_pos hic, if_pos hcond, ih (some f.path), hp]
      have hany : (f :: fs).any (fun f => f.path == "CLAUDE.md") = true := by
        simp [hp]
      rw [if_pos hany]
      split <;> rfl
    · have hcond : (f.path == "CLAUDE.md"
          || (endsWithL "/CLAUDE.md" f.path && f.path.data.count '/' == 0)) = false := by
        simp only [Bool.or_eq_false_iff, Bool.and_eq_false_iff, beq_eq_false_iff_ne, ne_eq]
        refine ⟨hp, ?_⟩
        by_cases he : endsWithL "/CLAUDE.md" f.path = true
        · right
          have := endsWith_slash_no_root f.path he
          simpa using this
        · left
          simpa using he
      have hstep :
          (if isClaudeFile f.path then
            if f.path == "CLAUDE.md"
                || (endsWithL "/CLAUDE.md" f.path && f.path.data.count '/' == 0)
            then some f.path
            else acc
          else acc) = acc := by
        rw [hcond]
        split <;> simp
      rw [hstep, ih acc]
      have hany : (f :: fs).any (fun f => f.path == "CLAUDE.md")
          = fs.any (fun f => f.path == "CLAUDE.md") := by
        simp [hp]
      rw [hany]

/-- C8 (amended): the case-insensitive substring match governs only which
files are scanned for routing tables and conventions; `root_doc` is
recorded if and only if some scanned file's path string is exactly
`"CLAUDE.md"` (case-sensitive, no separator-count clause takes effect:
the `endswith('/CLAUDE.md') and count('/') == 0` disjunct is
unsatisfiable), in which case `root_doc` is that exact string. -/
theorem claim_c8_root_doc_exact (files : List LoadedFile) :
    rootDocOf files
      = if files.any (fun f => f.path == "CLAUDE.md") then some "CLAUDE.md" else none :=
  rootDocOf_fold files none


/-- The character class `[\s_]` of the first `re.sub` in `_slugify`:
Python `\s` (Unicode whitespace for `str` patterns) or underscore. -/
def isPySpaceUnderscore (c : Char) : Bool :=
  c == ' ' || c == '\t' || c == '\n' || c == '\r' || c == '\x0b' || c == '\x0c' ||
  (decide (0x1c ≤ c.toNat) && decide (c.toNat ≤ 0x1f)) ||
  c.toNat == 0x85 || c.toNat == 0xa0 || c.toNat == 0x1680 ||
  (decide (0x2000 ≤ c.toNat) && decide (c.toNat ≤ 0x200a)) ||
  c.toNat == 0x2028 || c.toNat == 0x2029 || c.toNat == 0x202f ||
  c.toNat == 0x205f || c.toNat == 0x3000 || c == '_'

/-- `re.sub(p+, r, s)` for a character class `p`: every maximal run of
characters satisfying `p` is replaced by the single character `r`.  The
Boolean tracks whether the previous character was part of a run. -/
def subRuns (p : Char → Bool) (r : Char) : List Char → Bool → List Char
  | [], _ => []
  | c :: cs, inRun =>
    if p c then
      (if inRun then subRuns p r cs true else r :: subRuns p r cs true)
    else c :: subRuns p r cs false

/-- The character class kept by the second `re.sub` of `_slugify`
(`[^a-z0-9\-]` is removed). -/
def isAllowedSlugChar (c : Char) : Bool :=
  (decide ('a' ≤ c) && decide (c ≤ 'z')) || (decide ('0' ≤ c) && decide (c ≤ '9')) || c == '-'

/-- Python `slug.strip("-")`. -/
def stripHyphens (l : List Char) : List Char :=
  ((l.dropWhile fun c => c == '-').reverse.dropWhile fun c => c == '-').reverse

/-- Python `slug.rsplit("-", 1)[0]`: everything before the last hyphen when
one exists, the whole string otherwise. -/
def rsplitFirst (l : List Char) : List Char :=
  if l.contains '-' then ((l.reverse.dropWhile fun c => !(c == '-')).tail).reverse else l

/-- `Orchestrator._slugify` on character lists: lower-case, turn
whitespace/underscore runs into hyphens, drop disallowed characters,
collapse hyphen runs, strip border hyphens, truncate at `maxLength` cutting
back to the previous hyphen, and fall back to `"plan"` when empty. -/
def slugifyCore (maxLength : Nat) (text : List Char) : List Char :=
  let s1 := text.map asciiLower
  let s2 := subRuns isPySpaceUnderscore '-' s1 false
  let s3 := s2.filter isAllowedSlugChar
  let s4 := subRuns (fun c => c == '-') '-' s3 false
  let s5 := stripHyphens s4
  let s6 := if maxLength < s5.length then rsplitFirst (s5.take maxLength) else s5
  if s6.isEmpty then "plan".data else s6

/-- `Orchestrator._slugify` with its default `max_length = 30`. -/
def slugify (text : String) : String :=
  ⟨slugifyCore 30 text.data⟩

/-- `Orchestrator._create_session` id construction:
`f"\x7btimestamp}-\x7bslug}"`. -/
def createSessionId (timestamp : String) (task : String) : String :=
  timestamp ++ "-" ++ slugify task


/-- No two adjacent hyphens. -/
def NoDoubleHyphen (l : List Char) : Prop :=
  List.Chain' (fun a b => ¬(a = '-' ∧ b = '-')) l

theorem subRuns_mem (p : Char → Bool) (r : Char) :
    ∀ (l : List Char) (b : Bool) (c : Char), c ∈ subRuns p r l b → c = r ∨ c ∈ l := by
  intro l
  induction l with
  | nil =>
    intro b c hc
    simp [subRuns] at hc
  | cons a as ih =>
    intro b c hc
    unfold subRuns at hc
    by_cases hp : p a = true
    · rw [if_pos hp] at hc
      cases b with
      | true =>
        simp only [if_true] at hc
        rcases ih true c hc with h1 | h1
        · exact Or.inl h1
        · exact Or.inr (List.mem_cons_of_mem a h1)
      | false =>
        simp only [Bool.false_eq_true, if_false] at hc
        rcases List.mem_cons.mp hc with h1 | h1
        · exact Or.inl h1
        · rcases ih true c h1 with h2 | h2
          · exact Or.inl h2
          · exact Or.inr (List.mem_cons_of_mem a h2)
    · rw [if_neg hp] at hc
      rcases List.mem_cons.mp hc with h1 | h1
      · exact Or.inr (h1 ▸ List.mem_cons_self a as)
      · rcases ih false c h1 with h2 | h2
        · exact Or.inl h2
        · exact Or.inr (List.mem_cons_of_mem a h2)

theorem subRuns_true_head (p : Char → Bool) (r : Char) :
    ∀ (l : List Char) (c : Char) (cs : List Char),
    subRuns p r l true = c :: cs → p c = false := by
  intro l
  induction l with
  | nil =>
    intro c cs h
    simp [subRuns] at h
  | cons a as ih =>
    intro c cs h
    unfold subRuns at h
    by_cases hp : p a = true
    · rw [if_pos hp, if_pos rfl] at h
      exact ih c cs h
    · rw [if_neg hp] at h
      rw [(List.cons.injEq _ _ _ _).mp h |>.1] at hp
      simpa using hp

theorem subRuns_noDouble :
    ∀ (l : List Char) (b : Bool), NoDoubleHyphen (subRuns (fun c => c == '-') '-' l b) := by
  intro l
  induction l with
  | nil =>
    intro b
    simp [subRuns, NoDoubleHyphen]
  | cons a as ih =>
    intro b
    unfold subRuns
    by_cases hp : (a == '-') = true
    · rw [if_pos hp]
      cases b with
      | true => simpa using ih true
      | false =>
        simp only [Bool.false_eq_true, if_false]
        unfold NoDoubleHyphen
        rw [List.chain'_cons']
        refine ⟨?_, ih true⟩
        intro y hy
        cases hhead : (subRuns (fun c => c == '-') '-' as true).head? with
        | none => rw [hhead] at hy; cases hy
        | some z =>
          rw [hhead] at hy
          have hz : z = y := by simpa using hy
          cases hlist : subRuns (fun c => c == '-') '-' as true with
          | nil => rw [hlist] at hhead; simp at hhead
          | cons w ws =>
            rw [hlist] at hhead
            have hw : w = z := by simpa using hhead
            have hpw := subRuns_true_head (fun c => c == '-') '-' as w ws hlist
            intro hcon
            have hwy : w = y := hw.trans hz
            rw [hwy, hcon.2] at hpw
            simp at hpw
    · rw [if_neg hp]
      unfold NoDoubleHyphen
      rw [List.chain'_cons']
      refine ⟨?_, ih false⟩
      intro y _ hcon
      rw [hcon.1] at hp
      simp at hp

theorem chain'_dropWhile {R : Char → Char → Prop} (p : Char → Bool) :
    ∀ l : List Char, List.Chain' R l → List.Chain' R (l.dropWhile p) := by
  intro l
  induction l with
  | nil =>
    intro h
    exact h
  | cons a as ih =>
    intro h
    rw [List.dropWhile_cons]
    split
    · exact ih (List.chain'_cons'.mp h).2
    · exact h

theorem dropWhile_head_false (p : Char → Bool) :
    ∀ (l : List Char) (c : Char), (l.dropWhile p).head? = some c → p c = false := by
  intro l
  induction l with
  | nil =>
    intro c h
    simp at h
  | cons a as ih =>
    intro c h
    rw [List.dropWhile_cons] at h
    by_cases hp : p a = true
    · rw [if_pos hp] at h
      exact ih c h
    · rw [if_neg hp] at h
      have : a = c := by simpa using h
      rw [← this]
      simpa using hp

theorem noDouble_reverse (l : List Char) : NoDoubleHyphen l.reverse ↔ NoDoubleHyphen l := by
  unfold NoDoubleHyphen
  rw [List.chain'_reverse]
  constructor
  · intro h
    exact h.imp fun a b hab hcon => hab ⟨hcon.2, hcon.1⟩
  · intro h
    exact h.imp fun a b hab hcon => hab ⟨hcon.2, hcon.1⟩


/-- Properties of `strip("-")`: the result is a subset of the input,
no-double-hyphen is preserved, and neither end is a hyphen. -/
theorem stripHyphens_subset (l : List Char) : ∀ c ∈ stripHyphens l, c ∈ l := by
  intro c hc
  unfold stripHyphens at hc
  rw [List.mem_reverse] at hc
  have h1 := (List.dropWhile_sublist (fun c => c == '-')).mem hc
  rw [List.mem_reverse] at h1
  exact (List.dropWhile_sublist (fun c => c == '-')).mem h1

theorem stripHyphens_noDouble (l : List Char) (h : NoDoubleHyphen l) :
    NoDoubleHyphen (stripHyphens l) := by
  unfold stripHyphens
  rw [noDouble_reverse]
  exact chain'_dropWhile _ _ ((noDouble_reverse _).mpr (chain'_dropWhile _ _ h))

theorem stripHyphens_head (l : List Char) :
    ∀ c : Char, (stripHyphens l).head? = some c → c ≠ '-' := by
  intro c hc
  unfold stripHyphens at hc
  set A := l.dropWhile fun c => c == '-' with hA
  set B := A.reverse.dropWhile fun c => c == '-' with hB
  have hBsuffix : ∃ pre : List Char, A.reverse = pre ++ B := by
    exact ⟨A.reverse.takeWhile fun c => c == '-',
      (List.takeWhile_append_dropWhile _ _).symm⟩
  obtain ⟨pre, hpre⟩ := hBsuffix
  have hBne : B ≠ [] := by
    intro hnil
    rw [hnil] at hc
    simp at hc
  have hlast : B.getLast? = A.reverse.getLast? := by
    rw [hpre]
    exact (List.getLast?_append_of_ne_nil pre hBne).symm
  have hc2 : B.getLast? = some c := by
    rw [← List.head?_reverse]
    exact hc
  have hc3 : A.head? = some c := by
    rw [← List.getLast?_reverse]
    rw [← hlast]
    exact hc2
  have := dropWhile_head_false (fun c => c == '-') l c hc3
  simpa using this

theorem stripHyphens_getLast (l : List Char) :
    ∀ c : Char, (stripHyphens l).getLast? = some c → c ≠ '-' := by
  intro c hc
  unfold stripHyphens at hc
  rw [List.getLast?_reverse] at hc
  have := dropWhile_head_false (fun c => c == '-') _ c hc
  simpa using this

theorem head?_take_pos (l : List Char) (n : Nat) (hn : 0 < n) :
    (l.take n).head? = l.head? := by
  cases l with
  | nil => simp
  | cons a as =>
    cases n with
    | zero => omega
    | succ m => simp

/-- Properties of `rsplit("-", 1)[0]` on a non-empty no-double-hyphen list
that does not start with a hyphen: the result is non-empty, no longer than
the input, made of the input's characters, still no-double-hyphen, and
neither starts nor ends with a hyphen. -/
theorem rsplitFirst_props (t : List Char) (hchain : NoDoubleHyphen t)
    (hhead : ∀ c : Char, t.head? = some c → c ≠ '-') (hne : t ≠ []) :
    rsplitFirst t ≠ [] ∧ (rsplitFirst t).length ≤ t.length ∧
    (∀ c ∈ rsplitFirst t, c ∈ t) ∧ NoDoubleHyphen (rsplitFirst t) ∧
    (∀ c : Char, (rsplitFirst t).head? = some c → c ≠ '-') ∧
    (∀ c : Char, (rsplitFirst t).getLast? = some c → c ≠ '-') := by
  unfold rsplitFirst
  by_cases hcont : t.contains '-' = true
  · rw [if_pos hcont]
    set D := t.reverse.dropWhile fun c => !(c == '-') with hD
    have hsplit : t.reverse = (t.reverse.takeWhile fun c => !(c == '-')) ++ D :=
      (List.takeWhile_append_dropWhile _ _).symm
    have hDne : D ≠ [] := by
      intro hnil
      have hmem : '-' ∈ t.reverse := by
        rw [List.mem_reverse]
        simpa using hcont
      rw [hsplit, hnil, List.append_nil] at hmem
      have := List.mem_takeWhile_imp hmem
      simp at this
    obtain ⟨d, E, hDE⟩ := List.exists_cons_of_ne_nil hDne
    have hdhyph : d = '-' := by
      have := dropWhile_head_false (fun c => !(c == '-')) t.reverse d
        (by rw [← hD, hDE]; rfl)
      simpa using this
    have hErev : ((t.reverse.dropWhile fun c => !(c == '-')).tail).reverse = E.reverse := by
      rw [← hD, hDE]
      rfl
    rw [hErev]
    have hchainrev : NoDoubleHyphen t.reverse := (noDouble_reverse t).mpr hchain
    have hchainD : NoDoubleHyphen D := chain'_dropWhile _ _ hchainrev
    have hchainE : NoDoubleHyphen E := by
      have := hchainD
      rw [hDE] at this
      exact (List.chain'_cons'.mp this).2
    have hEheadNe : ∀ y : Char, E.head? = some y → y ≠ '-' := by
      intro y hy hcon
      have := hchainD
      rw [hDE] at this
      have h1 := (List.chain'_cons'.mp this).1 y (by rw [hy]; rfl)
      exact h1 ⟨hdhyph, hcon⟩
    have hEne : E ≠ [] := by
      intro hnil
      have hlastrev : t.reverse.getLast? = some '-' := by
        rw [hsplit, hDE, hnil]
        have : ((t.reverse.takeWhile fun c => !(c == '-')) ++ [d]).getLast? = some d :=
          List.getLast?_concat _
        rw [this, hdhyph]
      rw [List.getLast?_reverse] at hlastrev
      exact hhead '-' hlastrev rfl
    have hEgetLast : E.getLast? = t.head? := by
      have h1 : D.getLast? = t.reverse.getLast? := by
        rw [hsplit]
        exact (List.getLast?_append_of_ne_nil _ hDne).symm
      have h2 : E.getLast? = D.getLast? := by
        rw [hDE]
        exact (List.getLast?_append_of_ne_nil [d] hEne).symm
      rw [h2, h1, List.getLast?_reverse]
    refine ⟨?_, ?_, ?_, ?_, ?_, ?_⟩
    · intro hnil
      exact hEne (by simpa using hnil)
    · have h1 : D.length ≤ t.reverse.length := (List.dropWhile_sublist _).length_le
      rw [hDE] at h1
      simp only [List.length_cons, List.length_reverse] at h1 ⊢
      omega
    · intro c hc
      rw [List.mem_reverse] at hc
      have h1 : c ∈ D := by
        rw [hDE]
        exact List.mem_cons_of_mem d hc
      have h2 := (List.dropWhile_sublist _).mem h1
      rw [List.mem_reverse] at h2
      exact h2
    · rw [noDouble_reverse]
      exact hchainE
    · intro c hc
      rw [List.head?_reverse, hEgetLast] at hc
      exact hhead c hc
    · intro c hc
      rw [List.getLast?_reverse] at hc
      exact hEheadNe c hc
  · rw [if_neg hcont]
    refine ⟨hne, le_refl _, fun c hc => hc, hchain, hhead, ?_⟩
    intro c hc hcon
    have hmem := List.mem_of_mem_getLast? hc
    rw [hcon] at hmem
    have : t.contains '-' = true := by simpa using hmem
    exact hcont this


/-- C10: for every task string — empty and all-symbol strings included —
the slug embedded in a new session id is non-empty (falling back to
`"plan"`), at most 30 characters long, made only of lowercase ASCII
letters, digits and hyphens, has no two consecutive hyphens, and neither
starts nor ends with a hyphen. -/
theorem claim_c10_slug_wellformed (task : String) :
    slugify task ≠ "" ∧
    (slugify task).length ≤ 30 ∧
    (∀ c ∈ (slugify task).data, isAllowedSlugChar c = true) ∧
    NoDoubleHyphen (slugify task).data ∧
    (∀ c : Char, (slugify task).data.head? = some c → c ≠ '-') ∧
    (∀ c : Char, (slugify task).data.getLast? = some c → c ≠ '-') := by
  have hdata : (slugify task).data = slugifyCore 30 task.data := rfl
  have hlen : (slugify task).length = (slugifyCore 30 task.data).length := rfl
  have hne : slugify task ≠ "" ↔ slugifyCore 30 task.data ≠ [] := by
    unfold slugify
    constructor
    · intro h hnil
      exact h (by rw [hnil])
    · intro h hnil
      apply h
      have := congrArg String.data hnil
      simpa using this
  rw [hdata, hlen, hne]
  generalize task.data = text
  simp only [slugifyCore]
  set s4 := subRuns (fun c => c == '-') '-'
    ((subRuns isPySpaceUnderscore '-' (text.map asciiLower) false).filter isAllowedSlugChar)
    false with hs4
  set s5 := stripHyphens s4 with hs5
  have hmem5 : ∀ c ∈ s5, isAllowedSlugChar c = true := by
    intro c hc
    have h1 := stripHyphens_subset s4 c hc
    rcases subRuns_mem _ '-' _ false c h1 with h2 | h2
    · rw [h2]; decide
    · exact (List.mem_filter.mp h2).2
  have hchain5 : NoDoubleHyphen s5 := stripHyphens_noDouble s4 (subRuns_noDouble _ false)
  have hhead5 := stripHyphens_head s4
  have hlast5 := stripHyphens_getLast s4
  by_cases hlen30 : 30 < s5.length
  · rw [if_pos hlen30]
    set t := s5.take 30 with ht
    have htchain : NoDoubleHyphen t := List.Chain'.take hchain5 30
    have hthead : ∀ c : Char, t.head? = some c → c ≠ '-' := by
      intro c hc
      apply hhead5
      rw [← head?_take_pos s5 30 (by omega)]
      exact hc
    have htlen : t.length = 30 := by
      rw [ht, List.length_take]
      omega
    have htne : t ≠ [] := by
      intro hnil
      rw [hnil] at htlen
      simp at htlen
    obtain ⟨hune, hulen, husub, huch, huh, hul⟩ := rsplitFirst_props t htchain hthead htne
    have hulen30 : (rsplitFirst t).length ≤ 30 := by omega
    have hisEmpty : (rsplitFirst t).isEmpty = false := by
      cases hrs : rsplitFirst t with
      | nil => exact absurd hrs hune
      | cons a as => rfl
    rw [hisEmpty]
    simp only [Bool.false_eq_true, if_false]
    refine ⟨hune, hulen30, ?_, huch, huh, hul⟩
    intro c hc
    exact hmem5 c (List.take_subset 30 s5 (husub c hc))
  · rw [if_neg hlen30]
    by_cases hnil : s5.isEmpty = true
    · rw [hnil]
      simp only [if_true]
      refine ⟨by decide, by decide, by decide, by unfold NoDoubleHyphen; simp [List.chain'_cons], ?_, ?_⟩
      · intro c hc
        rw [show ("plan".data.head? = some 'p') from rfl] at hc
        rw [← Option.some.inj hc]
        decide
      · intro c hc
        rw [show ("plan".data.getLast? = some 'n') from rfl] at hc
        rw [← Option.some.inj hc]
        decide
    · have hfalse : s5.isEmpty = false := by
        cases h5 : s5.isEmpty
        · rfl
        · exact absurd h5 hnil
      rw [hfalse]
      simp only [Bool.false_eq_true, if_false]
      refine ⟨?_, by omega, hmem5, hchain5, hhead5, hlast5⟩
      intro h5nil
      rw [h5nil] at hfalse
      simp at hfalse

end Planify
